import Mathlib

/-!
Shallow embedding of `texar/data/data/data_utils.py` and verification of its
specification claims.

Python values are modelled by the inductive `PyVal`; a Python object
`__dict__` (insertion-ordered, duplicate-free string-keyed mapping) is an
association list `DataSpec`.  Python exceptions are modelled with
`Except PyErr`.
-/

namespace DataUtils

/-- Errors the Python code can raise in the modelled fragment. -/
inductive PyErr where
  | indexError : PyErr
  | typeError : PyErr
  | ioError : PyErr
  | valueError (msg : String) : PyErr
  deriving Repr, DecidableEq

/-- A Python value: `None`, an integer, a string, a list, or a tuple.
Other object kinds are irrelevant to the verified claims; integers and
strings serve as the atomic payloads. -/
inductive PyVal where
  | vNone : PyVal
  | vInt (n : Int) : PyVal
  | vStr (s : String) : PyVal
  | vList (l : List PyVal) : PyVal
  | vTuple (l : List PyVal) : PyVal

/-- `isinstance(v, (tuple, list))` from the source. -/
def PyVal.isSeq : PyVal → Bool
  | .vList _ => true
  | .vTuple _ => true
  | _ => false

/-- The `__dict__` of a `_DataSpec` instance: an insertion-ordered mapping
from field name to value. -/
abbrev DataSpec := List (String × PyVal)

/-- Lookup of a key in a `__dict__` (first occurrence). -/
def dictGet : DataSpec → String → Option PyVal
  | [], _ => none
  | (k', v') :: rest, k => if k' = k then some v' else dictGet rest k

/-- Python dict assignment `d[k] = v`: replaces the value in place if the
key exists (keeping its position), otherwise appends the key at the end. -/
def dictSet : DataSpec → String → PyVal → DataSpec
  | [], k, v => [(k, v)]
  | (k', v') :: rest, k, v =>
      if k' = k then (k', v) :: rest else (k', v') :: dictSet rest k v

/-- The keys of a `__dict__`, in order. -/
def dictKeys (d : DataSpec) : List String := d.map Prod.fst

/- ------------------------------------------------------------------
`maybe_tuple` (data_utils.py lines 87-94):
    data = tuple(data)
    data = data if len(data) > 1 else data[0]
`data[0]` on an empty tuple raises an Index error.
------------------------------------------------------------------ -/

/-- `maybe_tuple`: wraps the elements into a tuple when there are more than
one, unwraps the single element otherwise; indexing the empty tuple at 0
raises an Index error. -/
def maybe_tuple (data : List PyVal) : Except PyErr PyVal :=
  if data.length > 1 then .ok (.vTuple data)
  else
    match data.get? 0 with
    | some x => .ok x
    | none => .error .indexError

/- ------------------------------------------------------------------
`make_chained_transformation` (lines 104-123): the returned closure runs
    for tran_fns_i in tran_fns: data = tran_fns_i(data, *args, **kwargs)
The extra `*args, **kwargs` are frozen into each call, so each stage is a
unary function. -/

/-- The closure returned by `make_chained_transformation`: a left fold of
the transformation list over the running data value. -/
def make_chained_transformation (tran_fns : List (α → α)) : α → α :=
  fun data => tran_fns.foldl (fun d f => f d) data

/-- Sequential composition as the spec words it: the first function is
applied first and its output feeds the next. -/
def chainApplied : List (α → α) → α → α
  | [], x => x
  | f :: fs, x => chainApplied fs (f x)

/- ------------------------------------------------------------------
`make_combined_transformation` (lines 125-171).
Construction-time check:
    if name_prefix and len(name_prefix) != len(tran_fns): raise ValueError
Note `name_prefix` may be `None` (modelled `none`) or a list; an empty list
is falsy in Python, so the check is skipped for it. -/

/-- A transformation slot of the combined transformation: either a single
function or a list of functions applied in sequence (the closure wraps a
single function into a one-element list). -/
abbrev CompFns := (DataSpec → DataSpec) ⊕ List (DataSpec → DataSpec)

/-- `if not isinstance(tran_fns_i, (list, tuple)): tran_fns_i = [tran_fns_i]`. -/
def normalizeFns : CompFns → List (DataSpec → DataSpec)
  | .inl f => [f]
  | .inr fs => fs

/-- Python truthiness of the `name_prefix` argument: `None` and the empty
list are falsy. -/
def pfxTruthy : Option (List String) → Bool
  | none => false
  | some l => !l.isEmpty

/-- `new_name = "{}_{}".format(name_prefix[i], name)` when `name_prefix` is
truthy; indexing past the end of `name_prefix` raises an Index error. -/
def newName (namePfx : Option (List String)) (i : Nat) (name : String) :
    Except PyErr String :=
  if pfxTruthy namePfx then
    match (namePfx.getD []).get? i with
    | some p => .ok (p ++ "_" ++ name)
    | none => .error .indexError
  else .ok name

/-- Adding one field to `transformed_data`: raise a Value error when the
name is already present, insert at the end otherwise. -/
def insertField (acc : DataSpec) (kv : String × PyVal) : Except PyErr DataSpec :=
  if kv.1 ∈ dictKeys acc then
    .error (.valueError ("Field name already exists: " ++ kv.1))
  else .ok (acc ++ [kv])

/-- The body of the loop `for name, value in six.iteritems(data_i)`:
rename with the component prefix, then insert with collision check,
stopping at the first raised error. -/
def insertRenamed (namePfx : Option (List String)) (i : Nat) :
    DataSpec → List (String × PyVal) → Except PyErr DataSpec
  | acc, [] => .ok acc
  | acc, kv :: rest =>
      match newName namePfx i kv.1 with
      | .error e => .error e
      | .ok nn =>
          match insertField acc (nn, kv.2) with
          | .error e => .error e
          | .ok a => insertRenamed namePfx i a rest

/-- The loop `for i, tran_fns_i in enumerate(tran_fns)` of `_combined_fn`,
with explicit running index and accumulator.  `data[i]` past the end of the
input tuple raises an Index error. -/
def combinedGo (namePfx : Option (List String)) (data : List DataSpec) :
    List CompFns → Nat → DataSpec → Except PyErr DataSpec
  | [], _, acc => .ok acc
  | f :: rest, i, acc =>
      match data.get? i with
      | none => .error .indexError
      | some d0 =>
          let di := (normalizeFns f).foldl (fun d g => g d) d0
          match insertRenamed namePfx i acc di with
          | .error e => .error e
          | .ok acc' => combinedGo namePfx data rest (i + 1) acc'

/-- The closure `_combined_fn` returned by `make_combined_transformation`. -/
def combined_fn (tran_fns : List CompFns) (namePfx : Option (List String))
    (data : List DataSpec) : Except PyErr DataSpec :=
  combinedGo namePfx data tran_fns 0 []

/-- `make_combined_transformation`: the construction-time length check,
then the closure.  The check fires only when `name_prefix` is truthy. -/
def make_combined_transformation (tran_fns : List CompFns)
    (namePfx : Option (List String)) :
    Except PyErr (List DataSpec → Except PyErr DataSpec) :=
  if pfxTruthy namePfx ∧ (namePfx.getD []).length ≠ tran_fns.length then
    .error (.valueError
      "name_prefix, if provided, must be of the same length of tran_fns.")
  else .ok (combined_fn tran_fns namePfx)

/- ------------------------------------------------------------------
`count_file_lines` (lines 190-203):
    def _count_lines(fn):
        with open(fn) as f:
            i = -1
            for i, _ in enumerate(f): pass
            return i + 1
    if not isinstance(filenames, (list, tuple)): filenames = [filenames]
    num_lines = np.sum([_count_lines(fn) for fn in filenames])
A file is modelled by the list of lines its iteration yields; the file
system maps a path to that list, `none` when opening fails. -/

/-- The file system seen by `count_file_lines`. -/
abbrev FileSystem := String → Option (List String)

/-- `_count_lines` on an opened file: `i` starts at -1 and is overwritten
with each enumeration index, so the final value is the last index (or -1
for an empty file); the function returns `i + 1`. -/
def count_lines_file (lines : List String) : Int :=
  (lines.enum.foldl (fun _ p => (p.1 : Int)) (-1)) + 1

/-- The per-file counts of a list of paths, in order; the first unreadable
file aborts the whole call with an I/O error. -/
def countAll (fsys : FileSystem) : List String → Except PyErr (List Int)
  | [] => .ok []
  | fn :: rest =>
      match fsys fn with
      | none => .error .ioError
      | some lines =>
          match countAll fsys rest with
          | .ok cs => .ok (count_lines_file lines :: cs)
          | .error e => .error e

/-- `count_file_lines`: wraps a single path into a one-element list, then
sums the per-file counts. -/
def count_file_lines (fsys : FileSystem) (filenames : String ⊕ List String) :
    Except PyErr Int :=
  let fns := match filenames with
    | .inl f => [f]
    | .inr l => l
  match countAll fsys fns with
  | .ok cs => .ok cs.sum
  | .error e => .error e

/-- A concrete three-file file system used to instantiate hypotheses. -/
def exampleFS : FileSystem := fun p =>
  if p = "a.txt" then some ["l1", "l2"]
  else if p = "b.txt" then some ["x"]
  else if p = "empty.txt" then some []
  else none

/- ------------------------------------------------------------------
`_DataSpec.get_ith_data_spec` (lines 61-68):
    kwargs[k] = v[i] if isinstance(v, (tuple, list)) else v
------------------------------------------------------------------ -/

/-- One field of the projection: `v[i]` when the value is a list or tuple
(raising an Index error past the end), the value itself otherwise. -/
def projectVal (i : Nat) : PyVal → Except PyErr PyVal
  | .vList l =>
      match l.get? i with
      | some x => .ok x
      | none => .error .indexError
  | .vTuple l =>
      match l.get? i with
      | some x => .ok x
      | none => .error .indexError
  | v => .ok v

/-- Total description of an in-range projection of one field. -/
def projectValD (i : Nat) : PyVal → PyVal
  | .vList l => l.getD i .vNone
  | .vTuple l => l.getD i .vNone
  | v => v

/-- `get_ith_data_spec`: projects every field at index `i`, visiting fields
in order and raising on the first out-of-range sequence. -/
def get_ith_data_spec (spec : DataSpec) (i : Nat) : Except PyErr DataSpec :=
  match spec with
  | [] => .ok []
  | (k, v) :: rest =>
      match projectVal i v with
      | .error e => .error e
      | .ok w =>
          match get_ith_data_spec rest i with
          | .ok r => .ok ((k, w) :: r)
          | .error e => .error e

/-- Inserting a list of already-renamed fields one by one with the
collision check: the loop of `_combined_fn` restricted to final names. -/
def insertAll : DataSpec → List (String × PyVal) → Except PyErr DataSpec
  | acc, [] => .ok acc
  | acc, kv :: rest =>
      match insertField acc kv with
      | .error e => .error e
      | .ok a => insertAll a rest

/-- Total form of the component renaming, used to state what the merged
result contains (it agrees with `newName` whenever the prefix list is long
enough). -/
def newNameD (namePfx : Option (List String)) (i : Nat) (name : String) :
    String :=
  if pfxTruthy namePfx then (namePfx.getD []).getD i "" ++ "_" ++ name
  else name

/-- All per-component result fields, renamed with their component prefix,
in component order: the mappings whose merge `_combined_fn` returns. -/
def renamedResults (namePfx : Option (List String)) (data : List DataSpec) :
    List CompFns → Nat → List (String × PyVal)
  | [], _ => []
  | f :: rest, i =>
      ((normalizeFns f).foldl (fun d g => g d) (data.getD i [])).map
        (fun kv => (newNameD namePfx i kv.1, kv.2)) ++
      renamedResults namePfx data rest (i + 1)

/- ------------------------------------------------------------------
`_DataSpec.set_ith_data_spec` (lines 70-84):
    for k, v in six.iteritems(data_spec.__dict__):
        if k in self.__dict__:
            v_ = self.__dict__[k]
            if isinstance(v_, (tuple, list)):
                v_[i] = v
            else:
                self.__dict__[k] = v
        else:
            v_ = [None] * num
            v_[i] = v
            self.__dict__[k] = v_
Note `v_[i] = v` is Python item assignment: on a list it sets the i-th
element in place (Index error past the end); on a TUPLE it raises a Type
error, although the isinstance test admits tuples.
------------------------------------------------------------------ -/

/-- Processing of one field of `data_spec` by `set_ith_data_spec`. -/
def set_ith_step (self : DataSpec) (i num : Nat) (kv : String × PyVal) :
    Except PyErr DataSpec :=
  match dictGet self kv.1 with
  | some v_ =>
      match v_ with
      | .vList l =>
          if i < l.length then
            .ok (dictSet self kv.1 (.vList (l.set i kv.2)))
          else .error .indexError
      | .vTuple _ => .error .typeError
      | _ => .ok (dictSet self kv.1 kv.2)
  | none =>
      if i < num then
        .ok (dictSet self kv.1
          (.vList ((List.replicate num PyVal.vNone).set i kv.2)))
      else .error .indexError

/-- `set_ith_data_spec`: folds the per-field step over the fields of
`data_spec` in order, stopping at the first raised error. -/
def set_ith_data_spec (self : DataSpec) (i : Nat) (other : DataSpec)
    (num : Nat) : Except PyErr DataSpec :=
  match other with
  | [] => .ok self
  | kv :: rest =>
      match set_ith_step self i num kv with
      | .ok self' => set_ith_data_spec self' i rest num
      | .error e => .error e

/- ------------------------------------------------------------------
`random_shard_dataset` (lines 173-188):
    num_shards = utils.ceildiv(dataset_size, shard_size)
    boundaries = np.linspace(0, dataset_size, num=num_shards,
                             endpoint=False, dtype=np.int64)
    def _shard_fn(dataset):
        return (tf.data.Dataset.from_tensor_slices(boundaries)
                .shuffle(num_shards, seed=seed)
                .flat_map(lambda lb: dataset.skip(lb).take(shard_size)))
------------------------------------------------------------------ -/

/-- Modelled from the spec: `texar.core.utils.ceildiv` is not in the given
source; the spec computes the shard count as `ceil(dataset_size /
shard_size)`. -/
def ceildiv (a b : Nat) : Nat := (a + b - 1) / b

/-- `np.linspace(0, dataset_size, num=num_shards, endpoint=False,
dtype=np.int64)`: the i-th value is `i * dataset_size / num_shards`
truncated to an integer (floor, as all quantities are non-negative). -/
def boundaries (datasetSize shardSize : Nat) : List Nat :=
  (List.range (ceildiv datasetSize shardSize)).map
    (fun i => i * datasetSize / ceildiv datasetSize shardSize)

/-- The sequence produced by `_shard_fn`, parameterized by the order in
which the shuffle emits the boundaries: for each lower bound `lb`, the
`skip(lb).take(shard_size)` subrange of the source, flattened
back-to-back. -/
def random_shard_output (shardSize : Nat) (order : List Nat)
    (source : List α) : List α :=
  (order.map (fun lb => (source.drop lb).take shardSize)).flatten

/-- Modelled from the spec: the external dataset library's shuffle is a
"randomized reordering of a finite index sequence given a seed",
deterministic when a seed is supplied.  The reordering is keyed by the
seed when one is given and by ambient run entropy otherwise; any keyed
permutation satisfies the spec, a rotation is used here. -/
def tfShuffle (l : List Nat) (seed : Option Nat) (entropy : Nat) : List Nat :=
  let key := match seed with
    | some s => s
    | none => entropy
  l.rotate (key % (l.length + 1))

/-- One run of the transformation returned by `random_shard_dataset`:
the shuffled boundary order applied to the source, where `entropy` is the
ambient randomness of that particular run. -/
def random_shard_run (datasetSize shardSize : Nat) (seed : Option Nat)
    (entropy : Nat) (source : List α) : List α :=
  random_shard_output shardSize
    (tfShuffle (boundaries datasetSize shardSize) seed entropy) source

end DataUtils

namespace DataUtils

/- ------------------------------------------------------------------
Model-sanity lemmas and helper lemmas.
------------------------------------------------------------------ -/

/-- The modelled shuffle really is a reordering of its input. -/
theorem tfShuffle_perm (l : List Nat) (seed : Option Nat) (entropy : Nat) :
    (tfShuffle l seed entropy).Perm l :=
  List.rotate_perm l _

/-- The scan of `_count_lines` computes the number of lines. -/
theorem count_lines_file_eq_length (lines : List String) :
    count_lines_file lines = lines.length := by
  have aux : ∀ (xs : List String) (x : String) (n : Nat) (a : Int),
      (List.enumFrom n (x :: xs)).foldl (fun _ p => (p.1 : Int)) a =
        ((n + xs.length : Nat) : Int) := by
    intro xs
    induction xs with
    | nil => intro x n a; simp [List.enumFrom]
    | cons y ys ih =>
        intro x n a
        rw [show List.enumFrom n (x :: y :: ys) =
              (n, x) :: List.enumFrom (n + 1) (y :: ys) from rfl]
        simp only [List.foldl_cons]
        rw [ih y (n + 1) (n : Int)]
        simp only [List.length_cons]
        push_cast
        ring
  cases lines with
  | nil => rfl
  | cons x xs =>
      simp only [count_lines_file, List.enum, aux xs x 0 (-1)]
      simp only [List.length_cons]
      push_cast
      ring

/-- Splitting a list of length `m * s` into `m` consecutive chunks of
length `s` and flattening them recovers the list. -/
theorem chunks_flatten (s : Nat) :
    ∀ (m : Nat) (L : List α), L.length = m * s →
      ((List.range m).map (fun i => (L.drop (i * s)).take s)).flatten = L := by
  intro m
  induction m with
  | zero =>
      intro L hL
      simp at hL
      simp [hL]
  | succ m ih =>
      intro L hL
      rw [List.range_succ_eq_map]
      simp only [List.map_cons, List.map_map, List.flatten_cons]
      have hdrop : ∀ i : Nat, L.drop (Nat.succ i * s) = (L.drop s).drop (i * s) := by
        intro i
        rw [List.drop_drop, Nat.succ_mul, Nat.add_comm (i * s) s]
      have htail :
          (List.map ((fun i => (L.drop (i * s)).take s) ∘ Nat.succ) (List.range m)).flatten
            = L.drop s := by
        have : ((fun i => (L.drop (i * s)).take s) ∘ Nat.succ) =
            fun i => ((L.drop s).drop (i * s)).take s := by
          funext i
          simp [Function.comp, hdrop i]
        rw [this]
        apply ih
        rw [List.length_drop, hL, Nat.succ_mul]
        omega
      rw [htail]
      simp [List.take_append_drop]

/-- Setting a key leaves its value readable at that key. -/
theorem dictGet_dictSet_self (d : DataSpec) (k : String) (v : PyVal) :
    dictGet (dictSet d k v) k = some v := by
  induction d with
  | nil => simp [dictSet, dictGet]
  | cons kv rest ih =>
      obtain ⟨k0, v0⟩ := kv
      by_cases h0 : k0 = k
      · subst h0; simp [dictSet, dictGet]
      · simp [dictSet, dictGet, h0, ih]

/-- Setting one key does not change the others. -/
theorem dictGet_dictSet_ne (d : DataSpec) {k' k : String} (v : PyVal)
    (h : k' ≠ k) : dictGet (dictSet d k' v) k = dictGet d k := by
  induction d with
  | nil => simp [dictSet, dictGet, h]
  | cons kv rest ih =>
      obtain ⟨k0, v0⟩ := kv
      by_cases h0 : k0 = k'
      · subst h0
        simp [dictSet, dictGet, h]
      · simp only [dictSet, if_neg h0]
        by_cases h1 : k0 = k
        · simp [dictGet, h1]
        · simp [dictGet, h1, ih]

/-- A successful `set_ith_step` on one field leaves every other field
unchanged. -/
theorem set_ith_step_get_ne (self : DataSpec) (i num : Nat)
    (kv : String × PyVal) {self' : DataSpec}
    (h : set_ith_step self i num kv = .ok self')
    {k : String} (hk : k ≠ kv.1) :
    dictGet self' k = dictGet self k := by
  revert h
  unfold set_ith_step
  cases hv : dictGet self kv.1 with
  | none =>
      by_cases hi : i < num
      · simp only [if_pos hi]
        rintro h
        cases h
        exact dictGet_dictSet_ne _ _ (Ne.symm hk)
      · simp [if_neg hi]
  | some v_ =>
      cases v_ with
      | vList l =>
          by_cases hi : i < l.length
          · simp only [if_pos hi]
            rintro h
            cases h
            exact dictGet_dictSet_ne _ _ (Ne.symm hk)
          · simp [if_neg hi]
      | vTuple l => simp
      | vNone =>
          rintro h
          cases h
          exact dictGet_dictSet_ne _ _ (Ne.symm hk)
      | vInt n =>
          rintro h
          cases h
          exact dictGet_dictSet_ne _ _ (Ne.symm hk)
      | vStr s =>
          rintro h
          cases h
          exact dictGet_dictSet_ne _ _ (Ne.symm hk)

/-- A successful `set_ith_step` treats its own field as the source does:
a list field gets its i-th element replaced, a non-sequence field is
overwritten whole, and a missing field becomes a null sequence of length
`num` with index `i` set. -/
theorem set_ith_step_get_self (self : DataSpec) (i num : Nat)
    (kv : String × PyVal) {self' : DataSpec}
    (h : set_ith_step self i num kv = .ok self') :
    (∀ l, dictGet self kv.1 = some (PyVal.vList l) →
      dictGet self' kv.1 = some (PyVal.vList (l.set i kv.2))) ∧
    (∀ v_, dictGet self kv.1 = some v_ → v_.isSeq = false →
      dictGet self' kv.1 = some kv.2) ∧
    (dictGet self kv.1 = none →
      dictGet self' kv.1 =
        some (PyVal.vList ((List.replicate num PyVal.vNone).set i kv.2))) := by
  revert h
  unfold set_ith_step
  cases hv : dictGet self kv.1 with
  | none =>
      by_cases hi : i < num
      · simp only [if_pos hi]
        rintro h
        cases h
        refine ⟨fun l hl => ?_, fun v_ hvv _ => ?_, fun _ => ?_⟩
        · cases hl
        · cases hvv
        · exact dictGet_dictSet_self _ _ _
      · simp [if_neg hi]
  | some v_ =>
      cases v_ with
      | vList l =>
          by_cases hi : i < l.length
          · simp only [if_pos hi]
            rintro h
            cases h
            refine ⟨fun l' hl' => ?_, fun v' hv' hseq => ?_, fun hn => ?_⟩
            · injection hl' with hl'
              injection hl' with hl'
              subst hl'
              exact dictGet_dictSet_self _ _ _
            · injection hv' with hv'
              subst hv'
              simp [PyVal.isSeq] at hseq
            · cases hn
          · simp [if_neg hi]
      | vTuple l => simp
      | vNone =>
          rintro h
          cases h
          refine ⟨fun l' hl' => ?_, fun v' hv' _ => ?_, fun hn => ?_⟩
          · injection hl' with hl'
            exact PyVal.noConfusion hl'
          · injection hv' with hv'
            subst hv'
            exact dictGet_dictSet_self _ _ _
          · cases hn
      | vInt n =>
          rintro h
          cases h
          refine ⟨fun l' hl' => ?_, fun v' hv' _ => ?_, fun hn => ?_⟩
          · injection hl' with hl'
            exact PyVal.noConfusion hl'
          · injection hv' with hv'
            subst hv'
            exact dictGet_dictSet_self _ _ _
          · cases hn
      | vStr s =>
          rintro h
          cases h
          refine ⟨fun l' hl' => ?_, fun v' hv' _ => ?_, fun hn => ?_⟩
          · injection hl' with hl'
            exact PyVal.noConfusion hl'
          · injection hv' with hv'
            subst hv'
            exact dictGet_dictSet_self _ _ _
          · cases hn

/-- A successful injection leaves the fields that `data_spec` does not
mention unchanged. -/
theorem set_ith_get_notin (i num : Nat) :
    ∀ (other self r : DataSpec),
      set_ith_data_spec self i other num = .ok r →
      ∀ k, k ∉ other.map Prod.fst → dictGet r k = dictGet self k := by
  intro other
  induction other with
  | nil =>
      intro self r h k _
      cases h
      rfl
  | cons kv rest ih =>
      intro self r h k hk
      simp only [List.map_cons, List.mem_cons, not_or] at hk
      unfold set_ith_data_spec at h
      cases hs : set_ith_step self i num kv with
      | error e => rw [hs] at h; cases h
      | ok self' =>
          rw [hs] at h
          rw [ih self' r h k hk.2]
          exact set_ith_step_get_ne self i num kv hs hk.1

/-- When the prefix list is long enough, `newName` succeeds with the total
renaming. -/
theorem newName_eq_ok (namePfx : Option (List String)) (i : Nat)
    (hp : pfxTruthy namePfx = true → i < (namePfx.getD []).length) :
    ∀ name, newName namePfx i name = .ok (newNameD namePfx i name) := by
  intro name
  unfold newName newNameD
  by_cases ht : pfxTruthy namePfx
  · simp [ht, List.getElem?_eq_getElem (hp ht)]
  · simp [ht]

/-- Under a long-enough prefix list, the rename-then-insert loop is the
insertion loop over the pre-renamed pairs. -/
theorem insertRenamed_eq_insertAll (namePfx : Option (List String)) (i : Nat)
    (hp : pfxTruthy namePfx = true → i < (namePfx.getD []).length) :
    ∀ (pairs : List (String × PyVal)) (acc : DataSpec),
      insertRenamed namePfx i acc pairs =
        insertAll acc (pairs.map (fun kv => (newNameD namePfx i kv.1, kv.2))) := by
  intro pairs
  induction pairs with
  | nil => intro acc; rfl
  | cons kv rest ih =>
      intro acc
      show (match newName namePfx i kv.1 with
        | Except.error e => Except.error e
        | Except.ok nn =>
            match insertField acc (nn, kv.2) with
            | Except.error e => Except.error e
            | Except.ok a => insertRenamed namePfx i a rest) = _
      rw [newName_eq_ok namePfx i hp kv.1]
      show (match insertField acc (newNameD namePfx i kv.1, kv.2) with
        | Except.error e => Except.error e
        | Except.ok a => insertRenamed namePfx i a rest) = _
      cases hins : insertField acc (newNameD namePfx i kv.1, kv.2) with
      | error e => simp [insertAll, hins]
      | ok a => simp [insertAll, hins, ih a]

/-- The insertion loop splits over list append. -/
theorem insertAll_append :
    ∀ (l1 l2 : List (String × PyVal)) (acc : DataSpec),
      insertAll acc (l1 ++ l2) =
        match insertAll acc l1 with
        | .ok a => insertAll a l2
        | .error e => .error e := by
  intro l1
  induction l1 with
  | nil => intro l2 acc; rfl
  | cons kv l1 ih =>
      intro l2 acc
      show (match insertField acc kv with
        | Except.error e => Except.error e
        | Except.ok a => insertAll a (l1 ++ l2)) = _
      cases hins : insertField acc kv with
      | error e => simp [insertAll, hins]
      | ok a => simp [insertAll, hins, ih l2 a]

/-- With no duplicate among the existing and incoming names, the insertion
loop succeeds and appends all pairs in order. -/
theorem insertAll_ok :
    ∀ (l : List (String × PyVal)) (acc : DataSpec),
      (((acc ++ l).map Prod.fst).Nodup) → insertAll acc l = .ok (acc ++ l) := by
  intro l
  induction l with
  | nil => intro acc _; simp [insertAll]
  | cons kv l ih =>
      intro acc h
      have h' : (acc.map Prod.fst ++ kv.1 :: l.map Prod.fst).Nodup := by
        simpa using h
      have hnotin : kv.1 ∉ acc.map Prod.fst := by
        intro hmem
        exact (List.nodup_append.mp h').2.2 hmem (by simp)
      have hfield : insertField acc kv = .ok (acc ++ [kv]) := by
        simp [insertField, dictKeys, hnotin]
      have h2 : (((acc ++ [kv]) ++ l).map Prod.fst).Nodup := by
        rw [← List.append_cons]
        exact h
      show (match insertField acc kv with
        | Except.error e => Except.error e
        | Except.ok a => insertAll a l) = _
      rw [hfield]
      show insertAll (acc ++ [kv]) l = _
      rw [ih (acc ++ [kv]) h2, ← List.append_cons]

/-- With a duplicate among the names, the insertion loop raises a Value
error naming a field that occurs at least twice among the existing and
incoming names. -/
theorem insertAll_err :
    ∀ (l : List (String × PyVal)) (acc : DataSpec),
      (acc.map Prod.fst).Nodup →
      ¬ (((acc ++ l).map Prod.fst).Nodup) →
      ∃ name, 2 ≤ ((acc ++ l).map Prod.fst).count name ∧
        insertAll acc l =
          .error (.valueError ("Field name already exists: " ++ name)) := by
  intro l
  induction l with
  | nil =>
      intro acc h1 h2
      simp at h2
      exact absurd h1 h2
  | cons kv l ih =>
      intro acc h1 h2
      by_cases hmem : kv.1 ∈ acc.map Prod.fst
      · refine ⟨kv.1, ?_, ?_⟩
        · have hc1 : 0 < (acc.map Prod.fst).count kv.1 :=
            List.count_pos_iff.mpr hmem
          have hc2 : ((kv :: l).map Prod.fst).count kv.1 =
              (l.map Prod.fst).count kv.1 + 1 := by
            simp
          rw [List.map_append, List.count_append, hc2]
          omega
        · show (match insertField acc kv with
            | Except.error e => Except.error e
            | Except.ok a => insertAll a l) = _
          simp [insertField, dictKeys, hmem]
      · have hfield : insertField acc kv = .ok (acc ++ [kv]) := by
          simp [insertField, dictKeys, hmem]
        have h1' : ((acc ++ [kv]).map Prod.fst).Nodup := by
          rw [List.map_append, List.nodup_append]
          refine ⟨h1, by simp, ?_⟩
          intro a ha hb
          simp at hb
          exact hmem (hb ▸ ha)
        have h2' : ¬ ((((acc ++ [kv]) ++ l).map Prod.fst).Nodup) := by
          rw [← List.append_cons]
          exact h2
        obtain ⟨name, hc, he⟩ := ih (acc ++ [kv]) h1' h2'
        refine ⟨name, ?_, ?_⟩
        · rw [List.append_cons]
          exact hc
        · show (match insertField acc kv with
            | Except.error e => Except.error e
            | Except.ok a => insertAll a l) = _
          rw [hfield]
          exact he

/-- The component loop of `_combined_fn` is the insertion loop over all
renamed per-component results, provided the data tuple and the prefix
list are long enough for the components processed. -/
theorem combinedGo_eq (namePfx : Option (List String)) (data : List DataSpec) :
    ∀ (fns : List CompFns) (i : Nat) (acc : DataSpec),
      i + fns.length ≤ data.length →
      (pfxTruthy namePfx = true →
        i + fns.length ≤ (namePfx.getD []).length) →
      combinedGo namePfx data fns i acc =
        insertAll acc (renamedResults namePfx data fns i) := by
  intro fns
  induction fns with
  | nil => intro i acc _ _; rfl
  | cons f rest ih =>
      intro i acc hd hp
      have hi : i < data.length := by
        simp only [List.length_cons] at hd
        omega
      have hgetD : data.getD i [] = data[i] := by
        simp [List.getElem?_eq_getElem hi]
      have hd0 : data.get? i = some (data.getD i []) := by
        rw [List.get?_eq_getElem?, List.getElem?_eq_getElem hi, hgetD]
      show (match data.get? i with
        | none => Except.error PyErr.indexError
        | some d0 =>
            match insertRenamed namePfx i acc
                ((normalizeFns f).foldl
                  (fun (d : DataSpec) (g : DataSpec → DataSpec) => g d) d0) with
            | Except.error e => Except.error e
            | Except.ok acc' => combinedGo namePfx data rest (i + 1) acc') = _
      rw [hd0]
      show (match insertRenamed namePfx i acc
          ((normalizeFns f).foldl
            (fun (d : DataSpec) (g : DataSpec → DataSpec) => g d)
            (data.getD i [])) with
        | Except.error e => Except.error e
        | Except.ok acc' => combinedGo namePfx data rest (i + 1) acc') = _
      rw [insertRenamed_eq_insertAll namePfx i
        (fun ht => by
          have := hp ht
          simp only [List.length_cons] at this
          omega)]
      rw [show renamedResults namePfx data (f :: rest) i =
        ((normalizeFns f).foldl (fun d g => g d) (data.getD i [])).map
          (fun kv => (newNameD namePfx i kv.1, kv.2)) ++
        renamedResults namePfx data rest (i + 1) from rfl]
      rw [insertAll_append]
      cases hins : insertAll acc
          (((normalizeFns f).foldl (fun d g => g d) (data.getD i [])).map
            (fun kv => (newNameD namePfx i kv.1, kv.2))) with
      | error e => rfl
      | ok acc' =>
          exact ih (i + 1) acc'
            (by simp only [List.length_cons] at hd; omega)
            (fun ht => by
              have := hp ht
              simp only [List.length_cons] at this
              omega)

/- ------------------------------------------------------------------
Claims C9, C10, C5, C3.
------------------------------------------------------------------ -/

/-- Claim C9: `maybe_tuple` returns the tuple of the elements when there
are at least two of them, and unwraps a one-element sequence to its single
element. -/
theorem claim9_maybe_tuple (data : List PyVal) :
    (2 ≤ data.length → maybe_tuple data = .ok (.vTuple data)) ∧
    (∀ a, data = [a] → maybe_tuple data = .ok a) := by
  constructor
  · intro h
    have h1 : data.length > 1 := h
    simp [maybe_tuple, h1]
  · rintro a rfl
    simp [maybe_tuple]

/-- Witness for C9 at concrete inputs of length two and one. -/
theorem claim9_maybe_tuple_witness :
    maybe_tuple [.vInt 1, .vInt 2] = .ok (.vTuple [.vInt 1, .vInt 2]) ∧
    maybe_tuple [.vInt 7] = .ok (.vInt 7) :=
  ⟨(claim9_maybe_tuple [.vInt 1, .vInt 2]).1 (by decide),
   (claim9_maybe_tuple [.vInt 7]).2 (.vInt 7) rfl⟩

/-- Claim C10: on the empty sequence `maybe_tuple` does not produce an
empty tuple; the unwrapping branch indexes element 0 of the empty tuple and
raises an Index error. -/
theorem claim10_maybe_tuple_empty :
    maybe_tuple [] = .error .indexError ∧
    maybe_tuple [] ≠ .ok (.vTuple []) := by
  constructor
  · rfl
  · intro h
    simp [maybe_tuple] at h

/-- Claim C5: the chained transformation applies the functions in list
order, the output of one feeding the next, and the empty list yields the
identity function. -/
theorem claim5_chained (tran_fns : List (α → α)) (x : α) :
    make_chained_transformation tran_fns x = chainApplied tran_fns x ∧
    make_chained_transformation ([] : List (α → α)) x = x := by
  refine ⟨?_, rfl⟩
  induction tran_fns generalizing x with
  | nil => rfl
  | cons f fs ih => simpa [make_chained_transformation, chainApplied] using ih (f x)

/-- Counterexample to claim C3: `name_prefix = []` is provided and its
length 0 differs from `len(tran_fns) = 1`, yet construction succeeds (an
empty list is falsy in Python, so the length check is skipped). -/
theorem claim3_counterexample :
    ([] : List String).length ≠ [(Sum.inl id : CompFns)].length ∧
    (make_combined_transformation [(Sum.inl id : CompFns)] (some [])).isOk = true := by
  exact ⟨by decide, rfl⟩

/-- Claim C3 (amended): when a NON-EMPTY `name_prefix` is provided with a
length different from that of `tran_fns`, construction raises a Value
error before the closure is ever invoked. -/
theorem claim3_construction_check (tran_fns : List CompFns)
    (l : List String) (hne : l ≠ []) (hlen : l.length ≠ tran_fns.length) :
    make_combined_transformation tran_fns (some l) =
      .error (.valueError
        "name_prefix, if provided, must be of the same length of tran_fns.") := by
  have ht : pfxTruthy (some l) = true := by
    simp [pfxTruthy, List.isEmpty_iff, hne]
  simp [make_combined_transformation, ht, hlen]

/-- Witness for the amended C3 at a concrete mismatched non-empty prefix. -/
theorem claim3_construction_check_witness :
    make_combined_transformation [(Sum.inl id : CompFns)] (some ["a", "b"]) =
      .error (.valueError
        "name_prefix, if provided, must be of the same length of tran_fns.") :=
  claim3_construction_check [Sum.inl id] ["a", "b"] (by decide) (by decide)

/- ------------------------------------------------------------------
Claim C2.
------------------------------------------------------------------ -/

/-- Counterexample to claim C2: on a field stored as a TUPLE the code
passes the isinstance test but `v_[i] = v` is item assignment on a tuple,
which raises a Type error instead of setting the i-th element. -/
theorem claim2_counterexample :
    set_ith_data_spec [("x", PyVal.vTuple [PyVal.vInt 1, PyVal.vInt 2])] 0
        [("x", PyVal.vInt 5)] 2 = .error .typeError ∧
    set_ith_data_spec [("x", PyVal.vTuple [PyVal.vInt 1, PyVal.vInt 2])] 0
        [("x", PyVal.vInt 5)] 2 ≠
      .ok [("x", PyVal.vTuple [PyVal.vInt 5, PyVal.vInt 2])] :=
  ⟨rfl, fun h => nomatch h⟩

/-- Claim C2 (amended): for in-range indices, `set_ith_data_spec` treats
each field of `data_spec` as follows: a field existing in the container as
a LIST gets its i-th element replaced by the value from `data_spec`; a
field existing as a non-sequence scalar is overwritten entirely; a missing
field becomes a length-`num` sequence of nulls whose index i holds the
new value.  Fields not mentioned by `data_spec` are unchanged.  (A field
stored as a tuple raises a Type error, and out-of-range indices raise an
Index error, so those cases are excluded by hypothesis.) -/
theorem claim2_set_ith (self other : DataSpec) (i num : Nat)
    (hnodup : (other.map Prod.fst).Nodup)
    (hnum : i < num)
    (hok : ∀ kv ∈ other, ∀ v_, dictGet self kv.1 = some v_ →
      (∀ l, v_ = PyVal.vList l → i < l.length) ∧ ∀ l, v_ ≠ PyVal.vTuple l) :
    ∃ r, set_ith_data_spec self i other num = .ok r ∧
      (∀ k, k ∉ other.map Prod.fst → dictGet r k = dictGet self k) ∧
      ∀ kv ∈ other,
        (∀ l, dictGet self kv.1 = some (PyVal.vList l) →
          dictGet r kv.1 = some (PyVal.vList (l.set i kv.2))) ∧
        (∀ v_, dictGet self kv.1 = some v_ → v_.isSeq = false →
          dictGet r kv.1 = some kv.2) ∧
        (dictGet self kv.1 = none →
          dictGet r kv.1 =
            some (PyVal.vList ((List.replicate num PyVal.vNone).set i kv.2))) := by
  induction other generalizing self with
  | nil =>
      exact ⟨self, rfl, fun _ _ => rfl, fun kv hkv => absurd hkv (by simp)⟩
  | cons kv rest ih =>
      rw [List.map_cons] at hnodup
      obtain ⟨hhead, htailnodup⟩ := List.nodup_cons.mp hnodup
      obtain ⟨self', hs⟩ : ∃ self', set_ith_step self i num kv = .ok self' := by
        unfold set_ith_step
        cases hv : dictGet self kv.1 with
        | none =>
            refine ⟨dictSet self kv.1
              (.vList ((List.replicate num PyVal.vNone).set i kv.2)), ?_⟩
            rw [if_pos hnum]
        | some v_ =>
            have hcon := hok kv (by simp) v_ hv
            cases v_ with
            | vList l =>
                have hi : i < l.length := hcon.1 l rfl
                refine ⟨dictSet self kv.1 (.vList (l.set i kv.2)), ?_⟩
                simp [if_pos hi]
            | vTuple l => exact absurd rfl (hcon.2 l)
            | vNone => exact ⟨_, rfl⟩
            | vInt n => exact ⟨_, rfl⟩
            | vStr s => exact ⟨_, rfl⟩
      have hne : ∀ kv' ∈ rest, kv'.1 ≠ kv.1 := by
        intro kv' hkv' he
        exact hhead (he ▸ List.mem_map_of_mem Prod.fst hkv')
      have hget' : ∀ kv' ∈ rest, dictGet self' kv'.1 = dictGet self kv'.1 :=
        fun kv' hkv' => set_ith_step_get_ne self i num kv hs (hne kv' hkv')
      have hok' : ∀ kv' ∈ rest, ∀ v_, dictGet self' kv'.1 = some v_ →
          (∀ l, v_ = PyVal.vList l → i < l.length) ∧
            ∀ l, v_ ≠ PyVal.vTuple l := by
        intro kv' hkv' v_ hv
        exact hok kv' (by simp [hkv']) v_ ((hget' kv' hkv').symm.trans hv)
      obtain ⟨r, hr, hpres, hfields⟩ := ih self' htailnodup hok'
      refine ⟨r, ?_, ?_, ?_⟩
      · unfold set_ith_data_spec
        rw [hs]
        exact hr
      · intro k hk
        simp only [List.map_cons, List.mem_cons, not_or] at hk
        rw [hpres k hk.2]
        exact set_ith_step_get_ne self i num kv hs hk.1
      · intro kv' hkv'
        rcases List.mem_cons.mp hkv' with rfl | hmem
        · have hrk : dictGet r kv'.1 = dictGet self' kv'.1 := hpres kv'.1 hhead
          obtain ⟨h1, h2, h3⟩ := set_ith_step_get_self self i num kv' hs
          exact ⟨fun l hl => hrk.trans (h1 l hl),
            fun v_ hv hseq => hrk.trans (h2 v_ hv hseq),
            fun hn => hrk.trans (h3 hn)⟩
        · have heq := hget' kv' hmem
          obtain ⟨h1, h2, h3⟩ := hfields kv' hmem
          exact ⟨fun l hl => h1 l (heq.trans hl),
            fun v_ hv hseq => h2 v_ (heq.trans hv) hseq,
            fun hn => h3 (heq.trans hn)⟩

/-- Witness for the amended C2: injecting component 1 of a two-component
pipeline sets the second decoder entry, overwrites the scalar vocab field
handled by the scalar case, and creates a fresh null sequence for the new
field x. -/
theorem claim2_set_ith_witness :
    ∃ r, set_ith_data_spec
        [("decoder", PyVal.vList [PyVal.vInt 0, PyVal.vInt 1]),
         ("vocab", PyVal.vInt 5)] 1
        [("decoder", PyVal.vInt 9), ("x", PyVal.vInt 7)] 2 = .ok r ∧
      (∀ k, k ∉ ([("decoder", PyVal.vInt 9), ("x", PyVal.vInt 7)] :
          DataSpec).map Prod.fst →
        dictGet r k = dictGet
          [("decoder", PyVal.vList [PyVal.vInt 0, PyVal.vInt 1]),
           ("vocab", PyVal.vInt 5)] k) ∧
      ∀ kv ∈ ([("decoder", PyVal.vInt 9), ("x", PyVal.vInt 7)] : DataSpec),
        (∀ l, dictGet [("decoder", PyVal.vList [PyVal.vInt 0, PyVal.vInt 1]),
            ("vocab", PyVal.vInt 5)] kv.1 = some (PyVal.vList l) →
          dictGet r kv.1 = some (PyVal.vList (l.set 1 kv.2))) ∧
        (∀ v_, dictGet [("decoder", PyVal.vList [PyVal.vInt 0, PyVal.vInt 1]),
            ("vocab", PyVal.vInt 5)] kv.1 = some v_ → v_.isSeq = false →
          dictGet r kv.1 = some kv.2) ∧
        (dictGet [("decoder", PyVal.vList [PyVal.vInt 0, PyVal.vInt 1]),
            ("vocab", PyVal.vInt 5)] kv.1 = none →
          dictGet r kv.1 =
            some (PyVal.vList ((List.replicate 2 PyVal.vNone).set 1 kv.2))) := by
  refine claim2_set_ith _ _ 1 2 (by decide) (by decide) ?_
  intro kv hkv v_ hv
  simp only [List.mem_cons, List.not_mem_nil, or_false] at hkv
  rcases hkv with rfl | rfl
  · simp only [dictGet] at hv
    norm_num at hv
    subst hv
    constructor
    · intro l hl
      injection hl with hl
      subst hl
      decide
    · intro l hl
      exact PyVal.noConfusion hl
  · simp [dictGet] at hv

/- ------------------------------------------------------------------
Claim C7.
------------------------------------------------------------------ -/

/-- Claim C7: `count_file_lines` returns 0 for a zero-byte file (never
-1); on a sequence of readable paths it returns the sum of the per-file
line counts; a single path behaves as its one-element sequence. -/
theorem claim7_count_file_lines (fsys : FileSystem) (paths : List String)
    (p : String) (hp : fsys p = some [])
    (hall : ∀ q ∈ paths, fsys q ≠ none) :
    count_file_lines fsys (.inl p) = .ok 0 ∧
    count_file_lines fsys (.inr paths) =
      .ok ((paths.map (fun q => (((fsys q).getD []).length : Int))).sum) ∧
    (∀ q, count_file_lines fsys (.inl q) = count_file_lines fsys (.inr [q])) := by
  have haux : ∀ (qs : List String), (∀ q ∈ qs, fsys q ≠ none) →
      countAll fsys qs =
        .ok (qs.map (fun q => (((fsys q).getD []).length : Int))) := by
    intro qs
    induction qs with
    | nil => intro _; rfl
    | cons q rest ih =>
        intro h
        obtain ⟨lq, hlq⟩ : ∃ l, fsys q = some l := by
          cases hfq : fsys q with
          | none => exact absurd hfq (h q (by simp))
          | some l => exact ⟨l, rfl⟩
        have htail := ih (fun r hr => h r (by simp [hr]))
        simp [countAll, hlq, htail, count_lines_file_eq_length]
  refine ⟨?_, ?_, fun q => rfl⟩
  · have h1 : countAll fsys [p] = .ok [count_lines_file []] := by
      simp [countAll, hp]
    simp [count_file_lines, h1, count_lines_file_eq_length]
  · simp [count_file_lines, haux paths hall]

/-- Witness for C7 on a concrete file system: an empty file counts 0, the
two-file sum is the sum of the individual counts, and single-path calls
agree with one-element lists. -/
theorem claim7_count_file_lines_witness :
    count_file_lines exampleFS (.inl "empty.txt") = .ok 0 ∧
    count_file_lines exampleFS (.inr ["a.txt", "b.txt"]) =
      .ok ((["a.txt", "b.txt"].map
        (fun q => (((exampleFS q).getD []).length : Int))).sum) ∧
    (∀ q, count_file_lines exampleFS (.inl q) =
      count_file_lines exampleFS (.inr [q])) :=
  claim7_count_file_lines exampleFS ["a.txt", "b.txt"] "empty.txt" rfl
    (by decide)

/- ------------------------------------------------------------------
Claim C4.
------------------------------------------------------------------ -/

/-- Claim C4: when `i` is in range of every sequence-valued field,
`get_ith_data_spec` returns the container with every sequence field
replaced by its i-th element and every scalar field unchanged; and there
is a container and an out-of-range index on which it raises an Index
error. -/
theorem claim4_get_ith (spec : DataSpec) (i : Nat)
    (h : ∀ kv ∈ spec, ∀ l : List PyVal,
      (kv.2 = PyVal.vList l ∨ kv.2 = PyVal.vTuple l) → i < l.length) :
    get_ith_data_spec spec i =
      .ok (spec.map (fun kv => (kv.1, projectValD i kv.2))) ∧
    get_ith_data_spec [("x", PyVal.vList [])] 0 = .error .indexError := by
  refine ⟨?_, rfl⟩
  induction spec with
  | nil => rfl
  | cons kv rest ih =>
      obtain ⟨k, v⟩ := kv
      have htail := ih (fun kv hkv => h kv (by simp [hkv]))
      have hproj : projectVal i v = .ok (projectValD i v) := by
        cases v with
        | vList l =>
            have hi : i < l.length := h (k, .vList l) (by simp) l (Or.inl rfl)
            simp [projectVal, projectValD, List.getElem?_eq_getElem hi]
        | vTuple l =>
            have hi : i < l.length := h (k, .vTuple l) (by simp) l (Or.inr rfl)
            simp [projectVal, projectValD, List.getElem?_eq_getElem hi]
        | vNone => rfl
        | vInt n => rfl
        | vStr s => rfl
      simp [get_ith_data_spec, hproj, htail, projectValD]

/-- Witness for C4: projecting index 1 of a container with a two-element
decoder sequence and a scalar vocab yields the second decoder and the
unchanged vocab. -/
theorem claim4_get_ith_witness :
    get_ith_data_spec
        [("decoder", PyVal.vList [PyVal.vInt 0, PyVal.vInt 1]),
         ("vocab", PyVal.vInt 5)] 1 =
      .ok [("decoder", PyVal.vInt 1), ("vocab", PyVal.vInt 5)] := by
  have h := (claim4_get_ith
    [("decoder", PyVal.vList [PyVal.vInt 0, PyVal.vInt 1]),
     ("vocab", PyVal.vInt 5)] 1 ?_).1
  · exact h.trans rfl
  · intro kv hkv l hl
    simp at hkv
    rcases hkv with rfl | rfl
    · rcases hl with h' | h'
      · injection h' with h'
        subst h'
        decide
      · cases h'
    · rcases hl with h' | h' <;> cases h'

/- ------------------------------------------------------------------
Claim C1.
------------------------------------------------------------------ -/

/-- Counterexample to claim C1: with dataset_size = 10 and shard_size = 3
the linspace boundaries are [0, 2, 5, 7], so the shards overlap: element 2
appears twice in the output (shard order here is the identity reordering
of the boundaries, a legitimate shuffle outcome), hence the output is not
a permutation of the source. -/
theorem claim1_counterexample :
    boundaries 10 3 = [0, 2, 5, 7] ∧
    (random_shard_output 3 (boundaries 10 3) (List.range 10)).count 2 = 2 ∧
    ¬ (random_shard_output 3 (boundaries 10 3) (List.range 10)).Perm
        (List.range 10) := by decide

/-- Claim C1 (amended): when shard_size divides dataset_size the linspace
boundaries are the exact multiples of shard_size, and for every shuffle
order of the boundaries the emitted back-to-back shards form a permutation
of the source sequence `[0, dataset_size)`: every element appears exactly
once, with in-shard record order preserved by construction. -/
theorem claim1_partition (N s : Nat) (order : List Nat)
    (hN : 0 < N) (hs : 0 < s) (hdvd : s ∣ N)
    (hperm : order.Perm (boundaries N s)) :
    (random_shard_output s order (List.range N)).Perm (List.range N) := by
  obtain ⟨m, rfl⟩ := hdvd
  have hm : 0 < m := Nat.pos_of_ne_zero (by rintro rfl; simp at hN)
  have hceil : ceildiv (s * m) s = m := by
    unfold ceildiv
    have h1 : s * m + s - 1 = s * m + (s - 1) := by omega
    rw [h1, Nat.mul_add_div hs, Nat.div_eq_of_lt (by omega)]
    omega
  have hbound : boundaries (s * m) s = (List.range m).map (fun i => i * s) := by
    unfold boundaries
    rw [hceil]
    refine List.map_congr_left ?_
    intro i _
    rw [show i * (s * m) = i * s * m by ring, Nat.mul_div_cancel _ hm]
  have hflat : ((boundaries (s * m) s).map
      (fun lb => ((List.range (s * m)).drop lb).take s)).flatten =
        List.range (s * m) := by
    rw [hbound, List.map_map]
    exact chunks_flatten s m (List.range (s * m))
      (by rw [List.length_range]; ring)
  have hout := (hperm.map
    (fun lb => ((List.range (s * m)).drop lb).take s)).flatten
  rw [hflat] at hout
  exact hout

/-- Witness for the amended C1: dataset_size 6, shard_size 3, boundary
order reversed by the shuffle; the output is a permutation of [0, 6). -/
theorem claim1_partition_witness :
    (random_shard_output 3 [3, 0] (List.range 6)).Perm (List.range 6) :=
  claim1_partition 6 3 [3, 0] (by decide) (by decide) (by decide) (by decide)

/- ------------------------------------------------------------------
Claim C6.
------------------------------------------------------------------ -/

/-- Claim C6: on an input tuple long enough for the component list (and a
prefix list of matching length when one is in effect, as construction
guarantees), the combined transformation merges all per-component result
mappings, renamed with their component prefix and an underscore, when the
renamed names are pairwise distinct; when they are not, it raises a Value
error whose message names a field that occurs at least twice. -/
theorem claim6_combined (tranFns : List CompFns)
    (namePfx : Option (List String)) (data : List DataSpec)
    (hdata : tranFns.length ≤ data.length)
    (hpfx : pfxTruthy namePfx = true →
      (namePfx.getD []).length = tranFns.length) :
    (((renamedResults namePfx data tranFns 0).map Prod.fst).Nodup →
      combined_fn tranFns namePfx data =
        .ok (renamedResults namePfx data tranFns 0)) ∧
    (¬ ((renamedResults namePfx data tranFns 0).map Prod.fst).Nodup →
      ∃ name,
        2 ≤ ((renamedResults namePfx data tranFns 0).map Prod.fst).count name ∧
        combined_fn tranFns namePfx data =
          .error (.valueError ("Field name already exists: " ++ name))) := by
  have hgo : combined_fn tranFns namePfx data =
      insertAll [] (renamedResults namePfx data tranFns 0) :=
    combinedGo_eq namePfx data tranFns 0 []
      (by simpa using hdata)
      (fun ht => by simp [hpfx ht])
  constructor
  · intro hnd
    rw [hgo, insertAll_ok _ [] (by simpa using hnd)]
    simp
  · intro hnd
    obtain ⟨name, hc, he⟩ := insertAll_err
      (renamedResults namePfx data tranFns 0) [] (by simp)
      (by simpa using hnd)
    refine ⟨name, by simpa using hc, ?_⟩
    rw [hgo]
    exact he

/-- Witness for C6 at concrete inputs: with distinct prefixes the fields
of the two components are merged under their prefixed names, and without
prefixes the colliding name x raises the Value error naming it. -/
theorem claim6_combined_witness :
    combined_fn [Sum.inl id, Sum.inl id] (some ["a", "b"])
        [[("x", PyVal.vInt 1)], [("x", PyVal.vInt 2)]] =
      .ok [("a_x", PyVal.vInt 1), ("b_x", PyVal.vInt 2)] ∧
    combined_fn [Sum.inl id, Sum.inl id] none
        [[("x", PyVal.vInt 1)], [("x", PyVal.vInt 2)]] =
      .error (.valueError ("Field name already exists: " ++ "x")) := by
  constructor
  · have h := (claim6_combined [Sum.inl id, Sum.inl id] (some ["a", "b"])
      [[("x", PyVal.vInt 1)], [("x", PyVal.vInt 2)]]
      (by decide) (fun _ => by decide)).1 (by decide)
    exact h.trans rfl
  · obtain ⟨name, hc, he⟩ := (claim6_combined [Sum.inl id, Sum.inl id] none
      [[("x", PyVal.vInt 1)], [("x", PyVal.vInt 2)]]
      (by decide) (fun h => by cases h)).2 (by decide)
    have hname : name = "x" := by
      by_contra hne
      have hz :
          ((renamedResults none [[("x", PyVal.vInt 1)], [("x", PyVal.vInt 2)]]
            [Sum.inl id, Sum.inl id] 0).map Prod.fst).count name = 0 := by
        apply List.count_eq_zero.mpr
        intro hmem
        have : name = "x" := by
          have hx : (renamedResults none
              [[("x", PyVal.vInt 1)], [("x", PyVal.vInt 2)]]
              [Sum.inl id, Sum.inl id] 0).map Prod.fst = ["x", "x"] := rfl
          rw [hx] at hmem
          simpa using hmem
        exact hne this
      rw [hz] at hc
      omega
    rw [hname] at he
    exact he

/- ------------------------------------------------------------------
Claim C8.
------------------------------------------------------------------ -/

/-- Claim C8: with a fixed seed, two runs of the sharding transformation
over the same source yield identical output order, whatever ambient
entropy each run has: the shard order is a function of the seed and the
sizes alone. -/
theorem claim8_seed_determinism (datasetSize shardSize sd e1 e2 : Nat)
    (source : List α) :
    random_shard_run datasetSize shardSize (some sd) e1 source =
      random_shard_run datasetSize shardSize (some sd) e2 source := rfl

end DataUtils
